import Mathlib

/-!
Shallow embedding of `generate_release_files.py` (OmniNX/Omni-Downloader).

Python strings are modelled as `List Char` (one element per code point, so
`len`, slicing and `in` translate to `List.length`, `take`/`drop` and
membership).  Each Python function of the script is translated to a Lean
definition of the same name; network and file effects are abstracted as
explicit parameters (a fetch oracle, a file-system environment).  The
`configparser` stdlib calls the script makes (`add_section`/`set`/`write`
with `optionxform = str` and `space_around_delimiters=False`, and the
default `ConfigParser` reading loop) are modelled by `writeManifest` and
`readKV` below.  The write-side interpolation validation of
`ConfigParser.set` (`BasicInterpolation.before_set`, which raises
`ValueError` on values containing a stray `%`) is modelled by `interpOK`
and an `Option`-valued fetch loop; read-side value interpolation is not
modelled (values are treated as raw strings — the "modulo value typing"
reading of the round-trip contract, whose amended domain excludes `%`).
-/

set_option autoImplicit false

namespace OmniDownloader

/-- Python strings, modelled as lists of characters. -/
abbrev Str := List Char

/-- `s.split(sep)` for a single-character separator: splits on every
occurrence, keeping empty parts (Python semantics). -/
def splitOnChar (sep : Char) : Str → List Str
  | [] => [[]]
  | c :: cs =>
    if c = sep then [] :: splitOnChar sep cs
    else
      match splitOnChar sep cs with
      | p :: ps => (c :: p) :: ps
      | [] => [[c]]

/-- Python `parts[-1]` (total version; `parts` is never empty where used). -/
def lastPart (ps : List Str) : Str := ps.getLastD []

/-- Python `parts[-2]` (total version; guarded by `len(parts) > 1` in the code). -/
def secondLast (ps : List Str) : Str := ps.dropLast.getLastD []

/--
Tag Normalizer, from the body of `generate_release_ini` (lines 126-139):

    clean_tag = tag.lstrip('v')
    if len(clean_tag) > 30:
        if '-' in clean_tag:
            parts = clean_tag.split('-')
            if len(parts) > 1 and len(parts[-1]) > 20:
                clean_tag = f"{parts[-2]}-{parts[-1][:7]}"
            else:
                clean_tag = clean_tag[:30]
        else:
            clean_tag = clean_tag[:30]

(`str.lstrip('v')` removes every leading `'v'`; the dead conditional
`if len(parts) > 1 else parts[-1][:7]` is under a guard that already
established `len(parts) > 1`, so only its live branch is embedded.)
-/
def normalizeTag (tag : Str) : Str :=
  let clean := tag.dropWhile (fun c => c = 'v')
  if clean.length > 30 then
    if '-' ∈ clean then
      let parts := splitOnChar '-' clean
      if parts.length > 1 ∧ (lastPart parts).length > 20 then
        secondLast parts ++ '-' :: (lastPart parts).take 7
      else clean.take 30
    else clean.take 30
  else clean

/-- Abbreviation for the `'v'`-stripped tag used by the normalizer. -/
def cleanOf (tag : Str) : Str := tag.dropWhile (fun c => c = 'v')

/-- The normalizer's commit-hash branch rebuilds the tag as
`{second-to-last part}-{first 7 chars of last part}`. -/
def hashBranchFires (tag : Str) : Prop :=
  30 < (cleanOf tag).length ∧ '-' ∈ cleanOf tag ∧
    1 < (splitOnChar '-' (cleanOf tag)).length ∧
    20 < (lastPart (splitOnChar '-' (cleanOf tag))).length

instance (tag : Str) : Decidable (hashBranchFires tag) := by
  unfold hashBranchFires; infer_instance

/-! ### Repository Identifier Extractor

`extract_repo_from_url` runs `re.search(r'/repos/([^/]+)/([^/]+)/releases', url)`.
Because `[^/]+` cannot cross a `'/'`, the regex engine's behaviour is
deterministic at each start position: after the literal `/repos/` the first
group is forced to be the maximal nonempty run of non-`'/'` characters, a
literal `'/'` must follow, the second group is again the maximal nonempty run,
and the literal `/releases` must follow it directly.  `re.search` tries start
positions left to right. -/

/-- `eatLit lit s` returns `some rest` when `s = lit ++ rest`. -/
def eatLit : Str → Str → Option Str
  | [], s => some s
  | _ :: _, [] => none
  | l :: ls, c :: cs => if c = l then eatLit ls cs else none

/-- The character class `[^/]`. -/
def notSlash (c : Char) : Bool := c ≠ '/'

/-- The literal `/repos/`. -/
def repoLit : Str := ['/', 'r', 'e', 'p', 'o', 's', '/']

/-- The literal `/releases`. -/
def relLit : Str := ['/', 'r', 'e', 'l', 'e', 'a', 's', 'e', 's']

/-- Second half of the pattern: `([^/]+)/releases` against `r2`, with the
first group `o` already matched. -/
def matchTail2 (r2 o : Str) : Option (Str × Str) :=
  let rp := r2.takeWhile notSlash
  if rp = [] then none
  else
    match eatLit relLit (r2.dropWhile notSlash) with
    | some _ => some (o, rp)
    | none => none

/-- The literal `'/'` between the two groups, then the second half. -/
def matchSlash (rest1 o : Str) : Option (Str × Str) :=
  match rest1 with
  | '/' :: r2 => matchTail2 r2 o
  | _ => none

/-- One attempt of the pattern `/repos/([^/]+)/([^/]+)/releases` anchored at
the start of `s` (the forced-deterministic reading explained above). -/
def matchRepoAt (s : Str) : Option (Str × Str) :=
  match eatLit repoLit s with
  | none => none
  | some r1 =>
    let o := r1.takeWhile notSlash
    if o = [] then none else matchSlash (r1.dropWhile notSlash) o

/-- `re.search`: try each start position from the left. -/
def searchRepo : Str → Option (Str × Str)
  | [] => none
  | c :: rest =>
    match matchRepoAt (c :: rest) with
    | some p => some p
    | none => searchRepo rest

/-- `extract_repo_from_url` (lines 23-29): first match of
`/repos/([^/]+)/([^/]+)/releases`, returning the two groups, else `None`. -/
def extract_repo_from_url (url : Str) : Option (Str × Str) := searchRepo url

/-! ### Release Fetcher -/

/-- One JSON release object, keeping only the two fields the script reads
(`releases[0].get('tag_name', releases[0].get('name', ''))`); a `none` field
models an absent key. -/
structure ReleaseObj where
  tag_name : Option Str
  name : Option Str
deriving DecidableEq

/-- Abstract outcome of the single HTTP request issued by `get_latest_tag`:
a decoded JSON array, an `urllib.error.HTTPError` with a status code, or any
other transport/parse exception. -/
inductive FetchOutcome where
  | ok (releases : List ReleaseObj)
  | httpError (code : Nat)
  | exn
deriving DecidableEq

/--
`get_latest_tag` (lines 31-53), over an abstract request outcome:

    with urllib.request.urlopen(req, timeout=10) as response:
        releases = json.loads(response.read().decode('utf-8'))
        if releases and len(releases) > 0:
            return releases[0].get('tag_name', releases[0].get('name', ''))
    except urllib.error.HTTPError as e: ...   # prints, falls through
    except Exception as e: ...                # prints, falls through
    return None
-/
def get_latest_tag (out : FetchOutcome) : Option Str :=
  match out with
  | .ok releases =>
    match releases with
    | [] => none
    | r :: _ => some (r.tag_name.getD (r.name.getD []))
  | .httpError _ => none
  | .exn => none

/-! ### Per-category processing loop (body of `generate_release_ini`) -/

/-- One Entry as built by `parse_ini_file` (a dict with keys
`name`, `owner`, `repo`, `url`). -/
structure Entry where
  name : Str
  owner : Str
  repo : Str
  url : Str
deriving DecidableEq

/-- The loop's mutable state: the config section contents (an ordered
key-value mapping) and the monitoring counters. -/
structure LoopState where
  manifest : List (Str × Str)
  success : Nat
  failed : Nat
  failedEntries : List Str
deriving DecidableEq

/-- `configparser` section assignment `config.set(section, key, value)`:
overwrite in place if the key exists, else append (ordered-dict update). -/
def setKV (m : List (Str × Str)) (k v : Str) : List (Str × Str) :=
  if m.any (fun p => p.1 = k) then m.map (fun p => if p.1 = k then (k, v) else p)
  else m ++ [(k, v)]

/-- The failure label `f"{entry['name']} ({entry['owner']}/{entry['repo']})"`. -/
def failLabel (e : Entry) : Str :=
  e.name ++ (' ' :: '(' :: (e.owner ++ '/' :: (e.repo ++ [')'])))

/-- Python truthiness of `tag : Optional[str]` (`None` and `""` are falsy). -/
def truthy : Option Str → Bool
  | none => false
  | some t => !t.isEmpty

/-- Python `str.replace('%%', '')`: remove non-overlapping `%%` pairs,
scanning left to right. -/
def replDoublePct : Str → Str
  | '%' :: '%' :: rest => replDoublePct rest
  | c :: rest => c :: replDoublePct rest
  | [] => []

/-- `re.sub` of `_KEYCRE = %\(([^)]+)\)s` by the empty string: scan left to
right; at a `%`, try to match `(`, a maximal nonempty run of non-`)`
characters, `)`, `s`; on success drop the match and resume after it, on
failure keep the character and advance one position.  Fuelled like
`findSectionsAux`: every step consumes at least one character, so a fuel
equal to the length is never exhausted. -/
def subKeyRefAux : Nat → Str → Str
  | 0, s => s
  | _ + 1, [] => []
  | fuel + 1, '%' :: rest =>
    match rest with
    | '(' :: r2 =>
      match r2.dropWhile (fun c => c ≠ ')') with
      | ')' :: 's' :: r3 =>
        if r2.takeWhile (fun c => c ≠ ')') = [] then '%' :: subKeyRefAux fuel rest
        else subKeyRefAux fuel r3
      | _ => '%' :: subKeyRefAux fuel rest
    | _ => '%' :: subKeyRefAux fuel rest
  | fuel + 1, c :: rest => c :: subKeyRefAux fuel rest

def subKeyRef (s : Str) : Str := subKeyRefAux s.length s

/-- `BasicInterpolation.before_set`, run by `ConfigParser.set` on every
truthy value: strip `%%` escapes, then strip `%(...)s` references, and
accept iff no `%` remains; otherwise `set` raises `ValueError`. -/
def interpOK (v : Str) : Bool := decide ('%' ∉ subKeyRef (replDoublePct v))

/-- One iteration of the fetch loop (lines 118-146), minus the prints and
the rate-limit sleep (which do not touch the state):

    tag = get_latest_tag(entry['owner'], entry['repo'])
    if tag:
        clean_tag = <normalizeTag tag>
        config.set(section_name, entry['name'], clean_tag)
        success_count += 1
    else:
        failure_count += 1
        failed_entries.append(f"{entry['name']} ({entry['owner']}/{entry['repo']})")

`config.set` is not total: on a truthy value rejected by
`BasicInterpolation.before_set` (a stray `%`) it raises `ValueError`, which
nothing in the script catches — the loop dies with the state unchanged.
`none` models that uncaught exception.  (`RawConfigParser.set` guards the
interpolation check with `if value:`, so an empty normalized tag is always
stored.) -/
def processEntry (fetch : Str → Str → Option Str) (st : LoopState) (e : Entry) :
    Option LoopState :=
  match fetch e.owner e.repo with
  | some t =>
    if t.isEmpty then
      some { st with failed := st.failed + 1,
                     failedEntries := st.failedEntries ++ [failLabel e] }
    else
      let clean := normalizeTag t
      if clean.isEmpty || interpOK clean then
        some { st with manifest := setKV st.manifest e.name clean,
                       success := st.success + 1 }
      else none
  | none =>
    some { st with failed := st.failed + 1,
                   failedEntries := st.failedEntries ++ [failLabel e] }

/-- Initial loop state: empty section, zeroed counters. -/
def initState : LoopState := ⟨[], 0, 0, []⟩

/-- Whether the loop treats this entry as a success (`if tag:`). -/
def entrySucceeds (fetch : Str → Str → Option Str) (e : Entry) : Bool :=
  truthy (fetch e.owner e.repo)

/-- The raw tag the loop sees for a (succeeding) entry. -/
def fetchedTag (fetch : Str → Str → Option Str) (e : Entry) : Str :=
  (fetch e.owner e.repo).getD []

/-- Whether `config.set` accepts this entry's normalized tag (the empty
string is always accepted, because `set` skips the interpolation check for
falsy values). -/
def setOK (fetch : Str → Str → Option Str) (e : Entry) : Bool :=
  (normalizeTag (fetchedTag fetch e)).isEmpty ||
    interpOK (normalizeTag (fetchedTag fetch e))

/-! ### Manifest Writer (`config.write(f, space_around_delimiters=False)`) -/

/-- `configparser.write` turns embedded newlines of a value into
continuation lines (`str(value).replace('\n', '\n\t')`). -/
def replNl : Str → Str
  | [] => []
  | c :: cs => if c = '\n' then '\n' :: '\t' :: replNl cs else c :: replNl cs

/-- One written option line `f"{key}={value}\n"` (no delimiter spacing). -/
def kvLine (p : Str × Str) : Str := p.1 ++ '=' :: (replNl p.2 ++ ['\n'])

/-- The written file: `[section]\n`, one `key=value\n` line per item in
insertion order, then one blank line. -/
def writeManifest (sec : Str) (m : List (Str × Str)) : Str :=
  ('[' :: (sec ++ [']', '\n'])) ++ ((m.map kvLine).flatten ++ ['\n'])

/-- Section-name selection of `generate_release_ini` (lines 98-108). -/
def sectionNameFor (category : Str) : Str :=
  if category = "sysmodules".toList then "Versions".toList
  else if category = "overlays".toList then "Versions".toList
  else if category = "apps".toList then "Versions".toList
  else if category = "emulatoren".toList then "Versions".toList
  else "Release Info".toList

/-- The four category names hard-coded in `generate_release_ini`. -/
def knownCategories : List Str :=
  ["sysmodules".toList, "overlays".toList, "apps".toList, "emulatoren".toList]

/-- The monitoring dict returned by `generate_release_ini` (lines 160-166). -/
structure CategoryResult where
  category : Str
  total : Nat
  success : Nat
  failed : Nat
  failed_entries : List Str
deriving DecidableEq

/-- `generate_release_ini(category, entries, output_path)`: run the fetch
loop over the entries, write the section to the output file (returned here
as the file's contents), and return the monitoring dict.  If `config.set`
raises mid-loop, the exception propagates before the output file is opened
at line 149: nothing is written and no dict is returned (`none`). -/
def generate_release_ini (category : Str) (entries : List Entry)
    (fetch : Str → Str → Option Str) : Option (Str × CategoryResult) :=
  let sec := sectionNameFor category
  match entries.foldlM (processEntry fetch) initState with
  | none => none
  | some st =>
    some (writeManifest sec st.manifest,
      ⟨category, entries.length, st.success, st.failed, st.failedEntries⟩)

/-! ### Key-value parser (`configparser` reading loop, for the round-trip
contract).  Defaults of `ConfigParser()`: delimiters `=` and `:`, full-line
comments `#` and `;`, no inline comments, strict duplicate checking,
indentation-based continuation lines; `optionxform = str` keeps key case. -/

/-- The exact set of characters CPython treats as whitespace:
`str.isspace()` is true on precisely these 29 code points, and the `re`
module's `\s` (and its complement `\S`) for str patterns matches exactly
the same set. -/
def pyWsChars : List Char :=
  ['\t', '\n', '\x0b', '\x0c', '\r', '\x1c', '\x1d', '\x1e', '\x1f', ' ',
   '\x85', '\xa0', '\u1680', '\u2000', '\u2001', '\u2002', '\u2003', '\u2004',
   '\u2005', '\u2006', '\u2007', '\u2008', '\u2009', '\u200a', '\u2028',
   '\u2029', '\u202f', '\u205f', '\u3000']

/-- Python `str.strip()` whitespace, as used by the `configparser` reading
loop (`str.strip()` and the `\s*` of its option pattern strip the full
Unicode set `pyWsChars`; the lines handed to it never contain `'\n'`,
which line splitting already consumed). -/
def isWsChar (c : Char) : Bool := pyWsChars.contains c

def lstripWs (s : Str) : Str := s.dropWhile isWsChar

def rstripWs (s : Str) : Str := (s.reverse.dropWhile isWsChar).reverse

def stripWs (s : Str) : Str := rstripWs (lstripWs s)

/-- `SECTCRE = r"\[(?P<header>[^]]+)\]"`, matched at the start of the
stripped line; anything after `]` is ignored. -/
def secHdr : Str → Option Str
  | '[' :: rest =>
    let nm := rest.takeWhile (fun c => c ≠ ']')
    match rest.dropWhile (fun c => c ≠ ']') with
    | ']' :: _ => if nm = [] then none else some nm
    | _ => none
  | _ => none

/-- The option line pattern: non-greedy key up to the first `=` or `:`
(trailing whitespace of the key removed), value = rest of line stripped. -/
def kvSplit (v : Str) : Option (Str × Str) :=
  let k := v.takeWhile (fun c => ¬(c = '=' ∨ c = ':'))
  match v.dropWhile (fun c => ¬(c = '=' ∨ c = ':')) with
  | _ :: after => some (rstripWs k, stripWs after)
  | [] => none

inductive LineKind where
  | blank
  | comment
  | sectionHdr (title : Str)
  | kv (k v : Str)
  | cont (s : Str)
  | bad
deriving DecidableEq

/-- Classify one line of input the way `RawConfigParser._read` does. -/
def classifyLine (line : Str) : LineKind :=
  match line with
  | [] => .blank
  | lc :: _ =>
    match stripWs line with
    | [] => .blank
    | c :: cs =>
      if c = '#' ∨ c = ';' then .comment
      else if isWsChar lc then .cont (c :: cs)
      else
        match secHdr (c :: cs) with
        | some nm => .sectionHdr nm
        | none =>
          match kvSplit (c :: cs) with
          | some p => .kv p.1 p.2
          | none => .bad

/-- Append a continuation line to the value of the last option read. -/
def appendCont (items : List (Str × Str)) (s : Str) : Option (List (Str × Str)) :=
  match items with
  | [] => none
  | [(k, v)] => some [(k, v ++ '\n' :: s)]
  | p :: rest => (appendCont rest s).map (p :: ·)

/-- Reader state: the completed sections, and the section currently open. -/
structure RdSt where
  done : List (Str × List (Str × Str))
  cur : Option (Str × List (Str × Str))
deriving DecidableEq

/-- One step of the reading loop; `none` models the parser raising
(`MissingSectionHeaderError`, `DuplicateSectionError`, `DuplicateOptionError`,
`ParsingError`). -/
def rdStep (st : RdSt) (line : Str) : Option RdSt :=
  match classifyLine line with
  | .blank => some st
  | .comment => some st
  | .sectionHdr nm =>
    if st.done.any (fun p => p.1 = nm) ||
        (match st.cur with | some s => decide (s.1 = nm) | none => false) then none
    else some ⟨st.done ++ st.cur.toList, some (nm, [])⟩
  | .kv k v =>
    match st.cur with
    | none => none
    | some (sn, items) =>
      if items.any (fun p => p.1 = k) then none
      else some ⟨st.done, some (sn, items ++ [(k, v)])⟩
  | .cont s =>
    match st.cur with
    | none => none
    | some (sn, items) =>
      match appendCont items s with
      | some items2 => some ⟨st.done, some (sn, items2)⟩
      | none => none
  | .bad => none

def finalizeRd (st : RdSt) : List (Str × List (Str × Str)) :=
  st.done ++ st.cur.toList

/-- Read a whole file with the key-value parser: the ordered list of
sections, each with its ordered key-value items; `none` when parsing raises. -/
def readKV (content : Str) : Option (List (Str × List (Str × Str))) :=
  (List.foldlM rdStep ⟨[], none⟩ (splitOnChar '\n' content)).map finalizeRd

/-- Section names the written header line parses back to itself for:
nonempty, no newline (one header line), no `]` (the header pattern stops at
the first `]`). -/
def secOK (sec : Str) : Prop :=
  sec ≠ [] ∧ '\n' ∉ sec ∧ ']' ∉ sec

instance (sec : Str) : Decidable (secOK sec) := by
  unfold secOK; infer_instance

/-- Keys whose written option line parses back to the same key: nonempty,
single-line, free of the two delimiters, not shaped like a comment, section
header or continuation line, and without surrounding whitespace (which the
reader would strip). -/
def keyOK (k : Str) : Prop :=
  k ≠ [] ∧ '\n' ∉ k ∧ '=' ∉ k ∧ ':' ∉ k ∧
    lstripWs k = k ∧ rstripWs k = k ∧
    k.head? ≠ some '[' ∧ k.head? ≠ some '#' ∧ k.head? ≠ some ';'

instance (k : Str) : Decidable (keyOK k) := by
  unfold keyOK; infer_instance

/-- Values that survive the trip: single-line, without surrounding
whitespace (stripped by the reader), and `%`-free (stray `%` makes the real
`ConfigParser.set` raise before anything is written, and `%%`-escapes are
rewritten by interpolation on read-back). -/
def valOK (v : Str) : Prop :=
  '\n' ∉ v ∧ lstripWs v = v ∧ rstripWs v = v ∧ '%' ∉ v

instance (v : Str) : Decidable (valOK v) := by
  unfold valOK; infer_instance

/-! ### Config Reader (`parse_ini_file`, lines 55-87) -/

/--
`re.finditer(r'^\[([^\]]+)\]', content, re.MULTILINE)`: scan left to right;
at each position that starts a line, try to match `[` + a maximal nonempty
run of non-`]` characters + `]` (the run may span newlines); on a match,
record the section name and resume scanning after the `]`
(non-overlapping), else advance one character.  Returns each section name
together with the text following its header. -/
def findSectionsAux : Nat → Bool → Str → List (Str × Str)
  | 0, _, _ => []
  | _ + 1, _, [] => []
  | fuel + 1, atStart, c :: rest =>
    if atStart ∧ c = '[' then
      match rest.dropWhile (fun ch => ch ≠ ']') with
      | ']' :: after =>
        if rest.takeWhile (fun ch => ch ≠ ']') = [] then findSectionsAux fuel false rest
        else (rest.takeWhile (fun ch => ch ≠ ']'), after) :: findSectionsAux fuel false after
      | _ => findSectionsAux fuel false rest
    else findSectionsAux fuel (c = '\n') rest

/-- Entry point of the section scan.  Every recursive step of
`findSectionsAux` moves to a strict suffix of the remaining text
(`rest`, or the `after` following the matched `]`), so a fuel equal to the
text length is never exhausted: the fuel-0 arm is only ever reached with
the empty string, where it agrees with the no-fuel arm. -/
def findSections (content : Str) : List (Str × Str) :=
  findSectionsAux content.length true content

/--
`re.search(r'^\[', content[section_start:], re.MULTILINE)`: the section body
runs from just after the header up to the first later line-start `[`
(position 0 of the slice counts as a line start). -/
def bodyUpTo : Bool → Str → Str
  | _, [] => []
  | atStart, c :: rest =>
    if atStart ∧ c = '[' then [] else c :: bodyUpTo (c = '\n') rest

/-- Python regex `\s` for str patterns: the same set as `str.isspace()`
(`pyWsChars`), including the non-ASCII whitespace code points. -/
def isPyWs (c : Char) : Bool := pyWsChars.contains c

/-- The literal part of `r'https://api\.github\.com/repos/[^\s]+'`. -/
def urlLit : Str := "https://api.github.com/repos/".toList

/-- One anchored attempt of the URL pattern: the literal, then a maximal
nonempty run of non-whitespace characters. -/
def matchUrlAt (s : Str) : Option Str :=
  match eatLit urlLit s with
  | none => none
  | some rest =>
    let run := rest.takeWhile (fun c => !isPyWs c)
    if run = [] then none else some (urlLit ++ run)

/-- `re.findall(...)[0]`: the leftmost match of the URL pattern. -/
def firstUrl : Str → Option Str
  | [] => none
  | c :: rest =>
    match matchUrlAt (c :: rest) with
    | some u => some u
    | none => firstUrl rest

/-- What one section contributes to `parse_ini_file`'s result:

    github_urls = re.findall(r'https://api\.github\.com/repos/[^\s]+', section_content)
    if github_urls:
        repo_info = extract_repo_from_url(github_urls[0])
        if repo_info:
            entries.append({...})
-/
def sectionEntry (p : Str × Str) : Option Entry :=
  match firstUrl (bodyUpTo true p.2) with
  | none => none
  | some u =>
    match extract_repo_from_url u with
    | some (o, r) => some ⟨p.1, o, r, u⟩
    | none => none

/-- `parse_ini_file` (lines 55-87): iterate over the section matches,
appending an entry for each section that contributes one. -/
def parse_ini_file (content : Str) : List Entry :=
  (findSections content).foldl
    (fun acc p =>
      match firstUrl (bodyUpTo true p.2) with
      | none => acc
      | some u =>
        match extract_repo_from_url u with
        | some (o, r) => acc ++ [⟨p.1, o, r, u⟩]
        | none => acc) []

/-! ### Run Orchestrator (`main`, lines 168-241) -/

/-- The ambient effects `main` uses: whether a path exists, its contents,
and the composite network fetch `get_latest_tag(owner, repo)`. -/
structure Env where
  fileExists : Str → Bool
  readFile : Str → Str
  fetch : Str → Str → Option Str

def sysmodulesIn : Str := "include/sysmodules/sysmodules.ini".toList

def sysmodulesOut : Str := "include/sysmodules/RELEASE_SM.ini".toList

def overlaysIn : Str := "include/overlays/overlays.ini".toList

def overlaysOut : Str := "include/overlays/RELEASE_OV.ini".toList

def appsIn : Str := "include/apps/apps.ini".toList

def appsOut : Str := "include/apps/RELEASE_APPS.ini".toList

def emulatorenIn : Str := "include/emulatoren/emulatoren.ini".toList

def emulatorenOut : Str := "include/emulatoren/RELEASE_EM.ini".toList

/-- The four categories with their input and output paths, in `main`'s
fixed order. -/
def catSpecs : List (Str × Str × Str) :=
  [("sysmodules".toList, sysmodulesIn, sysmodulesOut),
   ("overlays".toList, overlaysIn, overlaysOut),
   ("apps".toList, appsIn, appsOut),
   ("emulatoren".toList, emulatorenIn, emulatorenOut)]

/-- A concrete environment for witnesses: only the sysmodules input file
exists, containing one section with a release URL; every fetch fails. -/
def envEx : Env where
  fileExists := fun p => p = sysmodulesIn
  readFile := fun p =>
    if p = sysmodulesIn then
      "[Mod]\nhttps://api.github.com/repos/foo/bar/releases?per_page=1\n".toList
    else []
  fetch := fun _ _ => none

/-- A concrete environment on which the run crashes: the sysmodules and
overlays inputs each hold one entry, and every fetch returns the tag
`"50%"`, which `config.set` rejects with `ValueError`. -/
def envCrash : Env where
  fileExists := fun p => p = sysmodulesIn ∨ p = overlaysIn
  readFile := fun p =>
    if p = sysmodulesIn then
      "[Mod]\nhttps://api.github.com/repos/foo/bar/releases?per_page=1\n".toList
    else if p = overlaysIn then
      "[Ovl]\nhttps://api.github.com/repos/baz/qux/releases?per_page=1\n".toList
    else []
  fetch := fun _ _ => some "50%".toList

/-- One of the four identical category blocks of `main`:

    if <in path>.exists():
        entries = parse_ini_file(<in path>)
        if entries:
            result = generate_release_ini(<category>, entries, <out path>)
            all_results.append(result)

Returns the files written (path, contents) and the results recorded;
`none` when the block raises (the uncaught `ValueError` out of
`generate_release_ini`), with nothing written for this category. -/
def categoryJob (env : Env) (category inPath outPath : Str) :
    Option (List (Str × Str) × List CategoryResult) :=
  if env.fileExists inPath then
    if (parse_ini_file (env.readFile inPath)).isEmpty then some ([], [])
    else
      match generate_release_ini category (parse_ini_file (env.readFile inPath))
          env.fetch with
      | some out => some ([(outPath, out.1)], [out.2])
      | none => none
  else some ([], [])

/-- `main`: the four category blocks in their fixed order.  An uncaught
`ValueError` in one block aborts the whole run: files written by earlier
blocks remain, later blocks never run, and no final summary is printed —
the second component is `none` for such a crashed run.  The summary itself
reads `all_results` but writes nothing. -/
def main (env : Env) : List (Str × Str) × Option (List CategoryResult) :=
  match categoryJob env "sysmodules".toList sysmodulesIn sysmodulesOut with
  | none => ([], none)
  | some j1 =>
    match categoryJob env "overlays".toList overlaysIn overlaysOut with
    | none => (j1.1, none)
    | some j2 =>
      match categoryJob env "apps".toList appsIn appsOut with
      | none => (j1.1 ++ j2.1, none)
      | some j3 =>
        match categoryJob env "emulatoren".toList emulatorenIn emulatorenOut with
        | none => (j1.1 ++ (j2.1 ++ j3.1), none)
        | some j4 =>
          (j1.1 ++ (j2.1 ++ (j3.1 ++ j4.1)), some (j1.2 ++ (j2.2 ++ (j3.2 ++ j4.2))))

/-! ## Helper lemmas -/

theorem splitOnChar_ne_nil (sep : Char) (s : Str) : splitOnChar sep s ≠ [] := by
  induction s with
  | nil => simp [splitOnChar]
  | cons c cs ih =>
    simp only [splitOnChar]
    split
    · simp
    · split
      · simp
      · exact absurd (by assumption) ih

theorem normalizeTag_eq_cleanOf (tag : Str) :
    normalizeTag tag =
      (if (cleanOf tag).length > 30 then
        if '-' ∈ cleanOf tag then
          if (splitOnChar '-' (cleanOf tag)).length > 1 ∧
              (lastPart (splitOnChar '-' (cleanOf tag))).length > 20 then
            secondLast (splitOnChar '-' (cleanOf tag)) ++
              '-' :: (lastPart (splitOnChar '-' (cleanOf tag))).take 7
          else (cleanOf tag).take 30
        else (cleanOf tag).take 30
      else cleanOf tag) := rfl

theorem eatLit_eq_some (lit : Str) : ∀ (s r : Str), eatLit lit s = some r ↔ s = lit ++ r := by
  induction lit with
  | nil => intro s r; simp [eatLit]
  | cons l ls ih =>
    intro s r
    cases s with
    | nil => simp [eatLit]
    | cons c cs =>
      by_cases h : c = l
      · subst h; simp [eatLit, ih]
      · simp [eatLit, h]

theorem takeWhile_run (p : Char → Bool) (a : Str) (x : Char) (b : Str)
    (ha : ∀ c ∈ a, p c = true) (hx : p x = false) :
    (a ++ x :: b).takeWhile p = a := by
  induction a with
  | nil => simp [List.takeWhile_cons, hx]
  | cons c cs ih =>
    have hc := ha c (by simp)
    simp only [List.cons_append, List.takeWhile_cons, hc, if_true]
    rw [ih (fun d hd => ha d (by simp [hd]))]

theorem dropWhile_run (p : Char → Bool) (a : Str) (x : Char) (b : Str)
    (ha : ∀ c ∈ a, p c = true) (hx : p x = false) :
    (a ++ x :: b).dropWhile p = x :: b := by
  induction a with
  | nil => simp [List.dropWhile_cons, hx]
  | cons c cs ih =>
    have hc := ha c (by simp)
    simp only [List.cons_append, List.dropWhile_cons, hc, if_true]
    exact ih (fun d hd => ha d (by simp [hd]))

theorem matchRepoAt_sound (s o r : Str) (h : matchRepoAt s = some (o, r)) :
    o ≠ [] ∧ r ≠ [] ∧ (∀ c ∈ o, c ≠ '/') ∧ (∀ c ∈ r, c ≠ '/') ∧
      ∃ post, s = repoLit ++ (o ++ ('/' :: (r ++ (relLit ++ post)))) := by
  unfold matchRepoAt at h
  split at h
  · exact absurd h (by simp)
  rename_i r1 h1
  simp only at h
  split at h
  · exact absurd h (by simp)
  rename_i ho
  unfold matchSlash at h
  split at h
  swap
  · exact absurd h (by simp)
  rename_i r2 h2
  unfold matchTail2 at h
  simp only at h
  split at h
  · exact absurd h (by simp)
  rename_i hrp
  split at h
  swap
  · exact absurd h (by simp)
  rename_i tail h3
  simp only [Option.some.injEq, Prod.mk.injEq] at h
  obtain ⟨ho2, hrr2⟩ := h
  have hs : s = repoLit ++ r1 := (eatLit_eq_some _ _ _).mp h1
  have hr1 : r1.takeWhile notSlash ++ r1.dropWhile notSlash = r1 :=
    List.takeWhile_append_dropWhile _ _
  have hr2' : r2.takeWhile notSlash ++ r2.dropWhile notSlash = r2 :=
    List.takeWhile_append_dropWhile _ _
  have htail : r2.dropWhile notSlash = relLit ++ tail :=
    (eatLit_eq_some _ _ _).mp h3
  have hr1eq : r1 = o ++ ('/' :: r2) := by
    calc r1 = r1.takeWhile notSlash ++ r1.dropWhile notSlash := hr1.symm
      _ = o ++ ('/' :: r2) := by rw [ho2, h2]
  have hr2eq : r2 = r ++ (relLit ++ tail) := by
    calc r2 = r2.takeWhile notSlash ++ r2.dropWhile notSlash := hr2'.symm
      _ = r ++ (relLit ++ tail) := by rw [hrr2, htail]
  refine ⟨?_, ?_, ?_, ?_, tail, ?_⟩
  · intro hh; exact ho (ho2.trans hh)
  · intro hh; exact hrp (hrr2.trans hh)
  · intro c hc
    rw [← ho2] at hc
    simpa [notSlash] using List.mem_takeWhile_imp hc
  · intro c hc
    rw [← hrr2] at hc
    simpa [notSlash] using List.mem_takeWhile_imp hc
  · rw [hs, hr1eq, hr2eq]

theorem matchRepoAt_complete (o r post : Str) (ho : o ≠ []) (hr : r ≠ [])
    (ho' : ∀ c ∈ o, c ≠ '/') (hr' : ∀ c ∈ r, c ≠ '/') :
    matchRepoAt (repoLit ++ (o ++ ('/' :: (r ++ (relLit ++ post))))) = some (o, r) := by
  have ho'' : ∀ c ∈ o, notSlash c = true := by
    intro c hc; simpa [notSlash] using ho' c hc
  have hr'' : ∀ c ∈ r, notSlash c = true := by
    intro c hc; simpa [notSlash] using hr' c hc
  have hslash : notSlash '/' = false := by simp [notSlash]
  unfold matchRepoAt
  rw [(eatLit_eq_some repoLit _ _).mpr rfl]
  simp only
  rw [takeWhile_run _ _ _ _ ho'' hslash, dropWhile_run _ _ _ _ ho'' hslash]
  rw [if_neg ho]
  unfold matchSlash
  simp only
  unfold matchTail2
  rw [show (relLit ++ post) = '/' :: ("releases".toList ++ post) from rfl]
  rw [takeWhile_run _ _ _ _ hr'' hslash, dropWhile_run _ _ _ _ hr'' hslash]
  simp only
  rw [if_neg hr]
  rw [show ('/' :: ("releases".toList ++ post)) = relLit ++ post from rfl]
  rw [(eatLit_eq_some relLit _ _).mpr rfl]

theorem matchRepoAt_nil : matchRepoAt [] = none := by
  simp [matchRepoAt, repoLit, eatLit]

theorem searchRepo_of_matchRepoAt (s : Str) (p : Str × Str)
    (h : matchRepoAt s = some p) : searchRepo s = some p := by
  cases s with
  | nil => rw [matchRepoAt_nil] at h; exact absurd h (by simp)
  | cons c rest => simp [searchRepo, h]

theorem searchRepo_sound (url : Str) : ∀ (o r : Str), searchRepo url = some (o, r) →
    o ≠ [] ∧ r ≠ [] ∧ (∀ c ∈ o, c ≠ '/') ∧ (∀ c ∈ r, c ≠ '/') ∧
      ∃ pre post, url = pre ++ (repoLit ++ (o ++ ('/' :: (r ++ (relLit ++ post))))) := by
  induction url with
  | nil => intro o r h; simp [searchRepo] at h
  | cons c rest ih =>
    intro o r h
    cases hm : matchRepoAt (c :: rest) with
    | some p =>
      rw [searchRepo, hm] at h
      simp only [Option.some.injEq] at h
      subst h
      obtain ⟨h1, h2, h3, h4, post, h5⟩ := matchRepoAt_sound _ _ _ hm
      exact ⟨h1, h2, h3, h4, [], post, by simpa using h5⟩
    | none =>
      rw [searchRepo, hm] at h
      obtain ⟨h1, h2, h3, h4, pre, post, h5⟩ := ih o r h
      exact ⟨h1, h2, h3, h4, c :: pre, post, by simp [h5]⟩

theorem searchRepo_complete (pre o r post : Str) (ho : o ≠ []) (hr : r ≠ [])
    (ho' : ∀ c ∈ o, c ≠ '/') (hr' : ∀ c ∈ r, c ≠ '/') :
    (searchRepo (pre ++ (repoLit ++ (o ++ ('/' :: (r ++ (relLit ++ post))))))).isSome := by
  induction pre with
  | nil =>
    rw [List.nil_append,
      searchRepo_of_matchRepoAt _ _ (matchRepoAt_complete o r post ho hr ho' hr')]
    rfl
  | cons c pre' ih =>
    rw [List.cons_append]
    cases hm : matchRepoAt (c :: (pre' ++ (repoLit ++ (o ++ ('/' :: (r ++ (relLit ++ post))))))) with
    | some p => simp [searchRepo, hm]
    | none => rw [searchRepo, hm]; exact ih

/-! ## Claim theorems -/

/-- **C1 (amended).** The Tag Normalizer's result has length at most 30 in
every branch except the commit-hash branch; in the commit-hash branch the
result is `{second-to-last dash-part}-{first 7 chars of last part}`, whose
length is exactly `length(second-to-last part) + 8`, and therefore exceeds
30 whenever the second-to-last part is longer than 22 characters. -/
theorem normalizeTag_length_bound (tag : Str) :
    (normalizeTag tag).length ≤ 30 ∨
      (hashBranchFires tag ∧
        normalizeTag tag =
          secondLast (splitOnChar '-' (cleanOf tag)) ++
            '-' :: (lastPart (splitOnChar '-' (cleanOf tag))).take 7 ∧
        (normalizeTag tag).length =
          (secondLast (splitOnChar '-' (cleanOf tag))).length + 8) := by
  rw [normalizeTag_eq_cleanOf]
  by_cases h30 : (cleanOf tag).length > 30
  · by_cases hdash : '-' ∈ cleanOf tag
    · by_cases hguard : (splitOnChar '-' (cleanOf tag)).length > 1 ∧
          (lastPart (splitOnChar '-' (cleanOf tag))).length > 20
      · right
        refine ⟨⟨h30, hdash, hguard.1, hguard.2⟩, ?_, ?_⟩
        · simp [h30, hdash, hguard]
        · simp only [h30, hdash, hguard, if_true, if_pos]
          simp [List.length_append, List.length_take]
          omega
      · left
        simp [h30, hdash, hguard, List.length_take]
    · left
      simp [h30, hdash, List.length_take]
  · left
    simp [h30]
    omega

/-- **C1 (counterexample).** The raw tag `'a'*31 ++ "-" ++ 'b'*21` takes the
commit-hash branch and normalizes to a 39-character string, refuting the
claimed universal 30-character bound. -/
theorem normalizeTag_length_counterexample :
    (normalizeTag (List.replicate 31 'a' ++ '-' :: List.replicate 21 'b')).length = 39 ∧
      ¬(normalizeTag (List.replicate 31 'a' ++ '-' :: List.replicate 21 'b')).length ≤ 30 := by
  constructor <;> decide

/-- **C7.** The Tag Normalizer is idempotent on its own outputs: a string of
length at most 30 that does not begin with `'v'` is returned unchanged. -/
theorem normalizeTag_idempotent_on_normalized (s : Str)
    (h30 : s.length ≤ 30) (hv : s.head? ≠ some 'v') :
    normalizeTag s = s := by
  have hdrop : cleanOf s = s := by
    unfold cleanOf
    cases s with
    | nil => rfl
    | cons c cs =>
      have hc : ¬(c = 'v') := by
        intro h; exact hv (by simp [List.head?, h])
      simp [List.dropWhile_cons, hc]
  rw [normalizeTag_eq_cleanOf, hdrop]
  simp [Nat.not_lt.mpr h30]

/-- Witness for C7 at the concrete already-normalized tag `"1.2.3"`. -/
theorem normalizeTag_idempotent_witness :
    ("1.2.3".toList.length ≤ 30 ∧ "1.2.3".toList.head? ≠ some 'v') ∧
      normalizeTag "1.2.3".toList = "1.2.3".toList :=
  ⟨⟨by decide, by decide⟩,
    normalizeTag_idempotent_on_normalized "1.2.3".toList (by decide) (by decide)⟩

/-- **C4 (amended).** Soundness and completeness of the Repository
Identifier Extractor: whenever it returns `some (o, r)`, the URL contains an
occurrence of `/repos/{o}/{r}/releases` with `o`, `r` nonempty runs of
non-`'/'` characters; whenever the URL contains at least one such occurrence
the extractor returns a pair (the implementation picks the leftmost
occurrence); and for any string containing no such pattern it returns
`None`.  (The original claim, that the returned pair equals the `(O, R)` of
*every* decomposition of the URL, fails when the pattern occurs twice.) -/
theorem extract_repo_from_url_spec (url : Str) :
    (∀ o r, extract_repo_from_url url = some (o, r) →
      o ≠ [] ∧ r ≠ [] ∧ (∀ c ∈ o, c ≠ '/') ∧ (∀ c ∈ r, c ≠ '/') ∧
        ∃ pre post, url = pre ++ (repoLit ++ (o ++ ('/' :: (r ++ (relLit ++ post)))))) ∧
    (∀ pre o r post, o ≠ [] → r ≠ [] → (∀ c ∈ o, c ≠ '/') → (∀ c ∈ r, c ≠ '/') →
      url = pre ++ (repoLit ++ (o ++ ('/' :: (r ++ (relLit ++ post))))) →
      (extract_repo_from_url url).isSome) ∧
    ((¬ ∃ pre o r post, o ≠ [] ∧ r ≠ [] ∧ (∀ c ∈ o, c ≠ '/') ∧ (∀ c ∈ r, c ≠ '/') ∧
        url = pre ++ (repoLit ++ (o ++ ('/' :: (r ++ (relLit ++ post)))))) →
      extract_repo_from_url url = none) := by
  refine ⟨fun o r h => searchRepo_sound url o r h, ?_, ?_⟩
  · intro pre o r post ho hr ho' hr' hurl
    subst hurl
    exact searchRepo_complete pre o r post ho hr ho' hr'
  · intro hno
    cases h : extract_repo_from_url url with
    | none => rfl
    | some p =>
      obtain ⟨o, r⟩ := p
      obtain ⟨h1, h2, h3, h4, pre, post, h5⟩ := searchRepo_sound url o r h
      exact absurd ⟨pre, o, r, post, h1, h2, h3, h4, h5⟩ hno

/-- Witness for C4 at the script's own URL shape
`https://api.github.com/repos/foo/bar/releases?per_page=1`. -/
theorem extract_repo_from_url_witness :
    (extract_repo_from_url
      "https://api.github.com/repos/foo/bar/releases?per_page=1".toList).isSome :=
  (extract_repo_from_url_spec _).2.1 "https://api.github.com".toList "foo".toList
    "bar".toList "?per_page=1".toList (by decide) (by decide) (by decide) (by decide)
    (by decide)

/-- **C4 (counterexample).** A URL containing the release-listing pattern
twice: it has the form `.../repos/c/d/releases` (with `pre` =
`/repos/a/b/releases`), yet the extractor returns `("a", "b")`, not
`("c", "d")`. -/
theorem extract_repo_from_url_counterexample :
    "/repos/a/b/releases/repos/c/d/releases".toList =
        "/repos/a/b/releases".toList ++
          (repoLit ++ ("c".toList ++ ('/' :: ("d".toList ++ (relLit ++ ([] : Str)))))) ∧
      extract_repo_from_url "/repos/a/b/releases/repos/c/d/releases".toList =
        some ("a".toList, "b".toList) ∧
      ("a".toList, "b".toList) ≠ (("c".toList : Str), ("d".toList : Str)) := by
  refine ⟨by decide, by decide, by decide⟩

/-- **C2 (amended).** The Manifest Writer writes its single output section
under the header `Versions` for every category in the enumerated set
{sysmodules, overlays, apps, **emulatoren**}, and under `Release Info` for
any category outside that set; whenever a file is written (the fetch loop
did not raise), it opens with that header.  (The code's fourth category is
the German `emulatoren`, not `emulators` as the claim's set has it.) -/
theorem sectionNameFor_spec (category : Str) (entries : List Entry)
    (fetch : Str → Str → Option Str) :
    sectionNameFor category =
      (if category ∈ knownCategories then "Versions".toList else "Release Info".toList) ∧
    ∀ out, generate_release_ini category entries fetch = some out →
      ∃ rest, out.1 = '[' :: (sectionNameFor category ++ (']' :: '\n' :: rest)) := by
  constructor
  · by_cases hmem : category ∈ knownCategories
    · rw [if_pos hmem]
      simp only [knownCategories, List.mem_cons, List.not_mem_nil, or_false] at hmem
      rcases hmem with rfl | rfl | rfl | rfl <;> decide
    · rw [if_neg hmem]
      simp only [knownCategories, List.mem_cons, List.not_mem_nil, or_false] at hmem
      push_neg at hmem
      obtain ⟨h1, h2, h3, h4⟩ := hmem
      unfold sectionNameFor
      rw [if_neg h1, if_neg h2, if_neg h3, if_neg h4]
  · intro out hout
    simp only [generate_release_ini] at hout
    cases hl : entries.foldlM (processEntry fetch) initState with
    | none => rw [hl] at hout; simp at hout
    | some st =>
      rw [hl] at hout
      simp only [Option.some.injEq] at hout
      refine ⟨(st.manifest.map kvLine).flatten ++ ['\n'], ?_⟩
      rw [← hout]
      simp [writeManifest]

/-- **C2 (counterexample).** The category string `emulators` — a member of
the claim's enumerated set — is sent to the fallback header
`Release Info`, while the code's actual fourth category `emulatoren` gets
`Versions`. -/
theorem sectionNameFor_counterexample :
    sectionNameFor "emulators".toList = "Release Info".toList ∧
      sectionNameFor "emulators".toList ≠ "Versions".toList ∧
      sectionNameFor "emulatoren".toList = "Versions".toList := by
  refine ⟨by decide, by decide, by decide⟩

/-- Witness for C2 at the sysmodules category with no entries: the written
file opens with the `[Versions]` header. -/
theorem sectionNameFor_witness :
    ∃ rest, ("[Versions]\n\n".toList : Str) =
      '[' :: (sectionNameFor "sysmodules".toList ++ (']' :: '\n' :: rest)) :=
  (sectionNameFor_spec "sysmodules".toList [] (fun _ _ => none)).2
    ("[Versions]\n\n".toList, ⟨"sysmodules".toList, 0, 0, 0, []⟩) (by decide)

/-- **C6.** Every fetch failure (HTTP 404, 403, any other status code, or a
transport/parse exception) makes `get_latest_tag` return `None` rather than
raise, and the per-category loop then leaves the output manifest and the
success counter unchanged, increments the failed counter by exactly one,
and appends `"name (owner/repo)"` to the failed-entries list. -/
theorem fetch_failure_handling :
    (∀ code, get_latest_tag (.httpError code) = none) ∧
    get_latest_tag .exn = none ∧
    (∀ (net : Str → Str → FetchOutcome) (st : LoopState) (e : Entry),
      ((∃ code, net e.owner e.repo = .httpError code) ∨ net e.owner e.repo = .exn) →
      processEntry (fun o r => get_latest_tag (net o r)) st e =
        some { st with failed := st.failed + 1,
                       failedEntries := st.failedEntries ++ [failLabel e] }) := by
  refine ⟨fun code => rfl, rfl, ?_⟩
  intro net st e h
  have hnone : get_latest_tag (net e.owner e.repo) = none := by
    rcases h with ⟨code, hc⟩ | hc <;> rw [hc] <;> rfl
  simp [processEntry, hnone]

/-- Witness for C6: a 404 on a concrete entry, processed from the initial
state, yields exactly the failure update. -/
theorem fetch_failure_witness :
    processEntry (fun o r => get_latest_tag ((fun _ _ => FetchOutcome.httpError 404) o r))
        initState ⟨"A".toList, "o".toList, "r".toList, "u".toList⟩ =
      some { initState with
        failed := initState.failed + 1,
        failedEntries := initState.failedEntries ++
          [failLabel ⟨"A".toList, "o".toList, "r".toList, "u".toList⟩] } :=
  fetch_failure_handling.2.2 (fun _ _ => .httpError 404) initState
    ⟨"A".toList, "o".toList, "r".toList, "u".toList⟩ (Or.inl ⟨404, rfl⟩)

/-- **C10.** When the API returns a non-empty JSON array whose first release
object has neither `tag_name` nor `name`, `get_latest_tag` returns the
empty string (not `None`), and the caller's truthiness test (`if tag:`)
classifies the entry as a failure: the manifest and the success counter are
untouched, the failed counter increments by one, and the entry joins the
failed-entries list — although the fetch itself succeeded. -/
theorem empty_tag_classified_as_failure :
    get_latest_tag (.ok [⟨none, none⟩]) = some ([] : Str) ∧
    some ([] : Str) ≠ (none : Option Str) ∧
    (∀ (net : Str → Str → FetchOutcome) (st : LoopState) (e : Entry),
      net e.owner e.repo = .ok [⟨none, none⟩] →
      processEntry (fun o r => get_latest_tag (net o r)) st e =
        some { st with failed := st.failed + 1,
                       failedEntries := st.failedEntries ++ [failLabel e] }) := by
  refine ⟨rfl, by simp, ?_⟩
  intro net st e h
  have hempty : get_latest_tag (net e.owner e.repo) = some ([] : Str) := by rw [h]; rfl
  simp [processEntry, hempty]

/-- Witness for C10: a concrete entry whose fetch returns `[{}]` is counted
as a failure and listed in the failed entries. -/
theorem empty_tag_witness :
    processEntry
        (fun o r => get_latest_tag ((fun _ _ => FetchOutcome.ok [⟨none, none⟩]) o r))
        initState ⟨"B".toList, "ow".toList, "rp".toList, "u".toList⟩ =
      some { initState with
        failed := initState.failed + 1,
        failedEntries := initState.failedEntries ++
          [failLabel ⟨"B".toList, "ow".toList, "rp".toList, "u".toList⟩] } :=
  empty_tag_classified_as_failure.2.2 (fun _ _ => .ok [⟨none, none⟩]) initState
    ⟨"B".toList, "ow".toList, "rp".toList, "u".toList⟩ rfl

theorem processEntry_fail (fetch : Str → Str → Option Str) (st : LoopState) (e : Entry)
    (h : entrySucceeds fetch e = false) :
    processEntry fetch st e =
      some { st with failed := st.failed + 1,
                     failedEntries := st.failedEntries ++ [failLabel e] } := by
  have h' : truthy (fetch e.owner e.repo) = false := h
  unfold processEntry
  cases hf : fetch e.owner e.repo with
  | none => rfl
  | some t =>
    rw [hf] at h'
    simp [truthy] at h'
    simp [h']

theorem processEntry_succ (fetch : Str → Str → Option Str) (st : LoopState) (e : Entry)
    (h : entrySucceeds fetch e = true) (hok : setOK fetch e = true) :
    processEntry fetch st e =
      some { st with manifest := setKV st.manifest e.name (normalizeTag (fetchedTag fetch e)),
                     success := st.success + 1 } := by
  have h' : truthy (fetch e.owner e.repo) = true := h
  have hok' : ((normalizeTag ((fetch e.owner e.repo).getD [])).isEmpty ||
      interpOK (normalizeTag ((fetch e.owner e.repo).getD []))) = true := hok
  unfold processEntry fetchedTag
  cases hf : fetch e.owner e.repo with
  | none => rw [hf] at h'; simp [truthy] at h'
  | some t =>
    rw [hf] at h'
    rw [hf] at hok'
    simp [truthy] at h'
    simp only [Option.getD_some] at hok'
    simp [h', hok']

/-- Full characterization of the fetch loop, for any starting state, when
every truthy entry's normalized tag passes the `config.set` interpolation
check: the loop completes, the counters count the truthy/falsy entries, the
failed-entries list collects the labels of the falsy ones in order, and the
manifest is the fold of `config.set` over the truthy ones. -/
theorem processEntry_loop (fetch : Str → Str → Option Str) (entries : List Entry) :
    ∀ st0 : LoopState,
      (∀ e ∈ entries, entrySucceeds fetch e = true → setOK fetch e = true) →
      entries.foldlM (processEntry fetch) st0 =
        some ⟨(entries.filter (fun e => entrySucceeds fetch e)).foldl
                (fun m e => setKV m e.name (normalizeTag (fetchedTag fetch e))) st0.manifest,
              st0.success + (entries.filter (fun e => entrySucceeds fetch e)).length,
              st0.failed + (entries.filter (fun e => !entrySucceeds fetch e)).length,
              st0.failedEntries ++
                (entries.filter (fun e => !entrySucceeds fetch e)).map failLabel⟩ := by
  induction entries with
  | nil =>
    intro st0 _
    simp [List.foldlM_nil]
  | cons e es ih =>
    intro st0 hok
    rw [List.foldlM_cons]
    cases hs : entrySucceeds fetch e with
    | true =>
      rw [processEntry_succ fetch st0 e hs (hok e (by simp) hs)]
      have hb : (some ({ st0 with
            manifest := setKV st0.manifest e.name (normalizeTag (fetchedTag fetch e)),
            success := st0.success + 1 } : LoopState) >>= fun init =>
          List.foldlM (processEntry fetch) init es) =
          List.foldlM (processEntry fetch)
            { st0 with
              manifest := setKV st0.manifest e.name (normalizeTag (fetchedTag fetch e)),
              success := st0.success + 1 } es := rfl
      rw [hb, ih _ (fun e' he' => hok e' (by simp [he']))]
      simp only [Option.some.injEq, LoopState.mk.injEq]
      refine ⟨?_, ?_, ?_, ?_⟩ <;> simp [List.filter_cons, hs] <;> try omega
    | false =>
      rw [processEntry_fail fetch st0 e hs]
      have hb : (some ({ st0 with
            failed := st0.failed + 1,
            failedEntries := st0.failedEntries ++ [failLabel e] } : LoopState) >>= fun init =>
          List.foldlM (processEntry fetch) init es) =
          List.foldlM (processEntry fetch)
            { st0 with
              failed := st0.failed + 1,
              failedEntries := st0.failedEntries ++ [failLabel e] } es := rfl
      rw [hb, ih _ (fun e' he' => hok e' (by simp [he']))]
      simp only [Option.some.injEq, LoopState.mk.injEq]
      refine ⟨?_, ?_, ?_, ?_⟩ <;> simp [List.filter_cons, hs] <;> try omega


theorem length_filter_bool_split {α : Type} (p : α → Bool) (l : List α) :
    (l.filter p).length + (l.filter (fun a => !p a)).length = l.length := by
  induction l with
  | nil => rfl
  | cons a t ih => cases hp : p a <;> simp [List.filter_cons, hp] <;> omega

theorem mem_keys_setKV (m : List (Str × Str)) (k v a : Str) :
    a ∈ (setKV m k v).map Prod.fst ↔ a ∈ m.map Prod.fst ∨ a = k := by
  unfold setKV
  split
  · rename_i hany
    have hkeys : (m.map (fun p => if p.1 = k then (k, v) else p)).map Prod.fst =
        m.map Prod.fst := by
      rw [List.map_map]
      apply List.map_congr_left
      intro p _
      by_cases hp : p.1 = k
      · simp [hp]
      · simp [hp]
    rw [hkeys]
    constructor
    · exact fun ha => Or.inl ha
    · rintro (ha | rfl)
      · exact ha
      · simp only [List.any_eq_true, decide_eq_true_eq] at hany
        obtain ⟨p, hp, hpk⟩ := hany
        exact List.mem_map.mpr ⟨p, hp, hpk⟩
  · simp

theorem mem_keys_foldl_setKV (g : Entry → Str) (l : List Entry) :
    ∀ (m0 : List (Str × Str)) (a : Str),
      a ∈ ((l.foldl (fun m e => setKV m e.name (g e)) m0).map Prod.fst) ↔
        a ∈ m0.map Prod.fst ∨ ∃ e ∈ l, e.name = a := by
  induction l with
  | nil => simp
  | cons e es ih =>
    intro m0 a
    rw [List.foldl_cons, ih]
    rw [mem_keys_setKV]
    constructor
    · rintro ((h | h) | h)
      · exact Or.inl h
      · exact Or.inr ⟨e, by simp, h.symm⟩
      · obtain ⟨e', he', hn⟩ := h
        exact Or.inr ⟨e', by simp [he'], hn⟩
    · rintro (h | h)
      · exact Or.inl (Or.inl h)
      · obtain ⟨e', he', hn⟩ := h
        rcases List.mem_cons.mp he' with rfl | hes
        · exact Or.inl (Or.inr hn.symm)
        · exact Or.inr ⟨e', hes, hn⟩

/-- **C3 (amended).** Whenever every entry with a truthy fetched tag has a
normalized tag accepted by `config.set`'s interpolation check — otherwise
`config.set` raises `ValueError` mid-loop and no `CategoryResult` exists at
all, as the counterexample shows — the loop completes and every entry is
accounted for exactly once: the success counter counts exactly the entries
with a truthy fetched tag, the failed counter counts exactly the rest, the
two sum to the number of entries, the failed-entries list is exactly the
labels of the failed entries, each succeeding entry's name is a key of the
output manifest, and each failing entry's label is in the failed-entries
list. -/
theorem category_accounting (fetch : Str → Str → Option Str) (entries : List Entry)
    (hok : ∀ e ∈ entries, entrySucceeds fetch e = true → setOK fetch e = true) :
    ∃ st, entries.foldlM (processEntry fetch) initState = some st ∧
      st.success + st.failed = entries.length ∧
      st.success = (entries.filter (fun e => entrySucceeds fetch e)).length ∧
      st.failed = (entries.filter (fun e => !entrySucceeds fetch e)).length ∧
      st.failedEntries = (entries.filter (fun e => !entrySucceeds fetch e)).map failLabel ∧
      ∀ e ∈ entries,
        (entrySucceeds fetch e = true → e.name ∈ st.manifest.map Prod.fst) ∧
        (entrySucceeds fetch e = false → failLabel e ∈ st.failedEntries) := by
  refine ⟨_, processEntry_loop fetch entries initState hok, ?_, ?_, ?_, ?_, ?_⟩
  · have := length_filter_bool_split (fun e => entrySucceeds fetch e) entries
    simp only [initState]
    omega
  · simp [initState]
  · simp [initState]
  · simp [initState]
  · intro e he
    constructor
    · intro hs
      rw [mem_keys_foldl_setKV (fun e => normalizeTag (fetchedTag fetch e))]
      exact Or.inr ⟨e, List.mem_filter.mpr ⟨he, hs⟩, rfl⟩
    · intro hs
      refine List.mem_append.mpr (Or.inr ?_)
      exact List.mem_map_of_mem _ (List.mem_filter.mpr ⟨he, by simp [hs]⟩)

/-- Witness for C3 at a concrete one-entry category whose fetch fails. -/
theorem category_accounting_witness :
    ∃ st, ([⟨"A".toList, "o".toList, "r".toList, "u".toList⟩] : List Entry).foldlM
        (processEntry (fun _ _ => none)) initState = some st ∧
      st.success + st.failed = 1 ∧
      failLabel ⟨"A".toList, "o".toList, "r".toList, "u".toList⟩ ∈ st.failedEntries :=
  match category_accounting (fun _ _ => none)
      [⟨"A".toList, "o".toList, "r".toList, "u".toList⟩]
      (by intro e he hs; simp [entrySucceeds, truthy] at hs) with
  | ⟨st, h1, h2, _, _, _, h6⟩ =>
    ⟨st, h1, h2, (h6 ⟨"A".toList, "o".toList, "r".toList, "u".toList⟩ (by simp)).2
      (by decide)⟩

/-- **C3 (counterexample).** An entry whose fetch returns the tag `"50%"`
is truthy — the claim says it must be accounted as a success — but
`config.set` rejects the value (`BasicInterpolation` `ValueError`), the
loop raises, and there is no final state and no `CategoryResult` at all:
nothing is accounted. -/
theorem category_accounting_counterexample :
    entrySucceeds (fun _ _ => some "50%".toList)
        ⟨"A".toList, "o".toList, "r".toList, "u".toList⟩ = true ∧
      ([⟨"A".toList, "o".toList, "r".toList, "u".toList⟩] : List Entry).foldlM
        (processEntry (fun _ _ => some "50%".toList)) initState = none := by
  refine ⟨by decide, by decide⟩

theorem categoryJob_some_spec (env : Env) (cat inPath outPath : Str)
    (j : List (Str × Str) × List CategoryResult)
    (hj : categoryJob env cat inPath outPath = some j) :
    (j.1 = [] ∧ ¬(env.fileExists inPath = true ∧
        parse_ini_file (env.readFile inPath) ≠ [])) ∨
    (∃ content, j.1 = [(outPath, content)] ∧
      env.fileExists inPath = true ∧ parse_ini_file (env.readFile inPath) ≠ []) := by
  unfold categoryJob at hj
  by_cases hex : env.fileExists inPath = true
  · rw [if_pos hex] at hj
    cases hp : parse_ini_file (env.readFile inPath) with
    | nil =>
      rw [hp] at hj
      simp only [List.isEmpty_nil, if_true] at hj
      simp only [Option.some.injEq] at hj
      left
      exact ⟨by rw [← hj], fun hcond => hcond.2 rfl⟩
    | cons a l =>
      have hne : ¬((a :: l).isEmpty = true) := by simp
      rw [hp, if_neg hne] at hj
      cases hg : generate_release_ini cat (a :: l) env.fetch with
      | none => rw [hg] at hj; simp at hj
      | some out =>
        rw [hg] at hj
        simp only [Option.some.injEq] at hj
        right
        exact ⟨out.1, by rw [← hj], hex, by simp⟩
  · rw [if_neg hex] at hj
    simp only [Option.some.injEq] at hj
    left
    exact ⟨by rw [← hj], fun hcond => hex hcond.1⟩

theorem fst_of_mem_categoryJob (env : Env) (cat inPath outPath : Str)
    (j : List (Str × Str) × List CategoryResult) (p : Str × Str)
    (hj : categoryJob env cat inPath outPath = some j) (hp : p ∈ j.1) :
    p.1 = outPath := by
  rcases categoryJob_some_spec env cat inPath outPath j hj with ⟨h1, _⟩ | ⟨c, h1, _⟩
  · rw [h1] at hp; simp at hp
  · rw [h1] at hp
    simp only [List.mem_singleton] at hp
    rw [hp]

theorem not_mem_categoryJob_ne (env : Env) (cat inPath outPath : Str)
    (j : List (Str × Str) × List CategoryResult) (a content : Str)
    (hj : categoryJob env cat inPath outPath = some j) (hne : a ≠ outPath) :
    (a, content) ∉ j.1 :=
  fun h => hne (fst_of_mem_categoryJob env cat inPath outPath j (a, content) hj h)

theorem categoryJob_all_fail (env : Env) (cat inPath outPath : Str)
    (hex : env.fileExists inPath = true)
    (hne : parse_ini_file (env.readFile inPath) ≠ [])
    (hfail : ∀ e ∈ parse_ini_file (env.readFile inPath),
      entrySucceeds env.fetch e = false) :
    ∃ j, categoryJob env cat inPath outPath = some j ∧
      (outPath, writeManifest (sectionNameFor cat) []) ∈ j.1 := by
  have hok : ∀ e ∈ parse_ini_file (env.readFile inPath),
      entrySucceeds env.fetch e = true → setOK env.fetch e = true := by
    intro e he hs
    rw [hfail e he] at hs
    exact absurd hs (by simp)
  have hloop := processEntry_loop env.fetch (parse_ini_file (env.readFile inPath))
    initState hok
  have hfilter : (parse_ini_file (env.readFile inPath)).filter
      (fun e => entrySucceeds env.fetch e) = [] := by
    rw [List.filter_eq_nil_iff]
    intro e he
    simp [hfail e he]
  rw [hfilter] at hloop
  simp only [List.foldl_nil, List.length_nil, Nat.add_zero] at hloop
  unfold categoryJob
  rw [if_pos hex]
  cases hp : parse_ini_file (env.readFile inPath) with
  | nil => exact absurd hp hne
  | cons a l =>
    rw [hp] at hloop
    rw [if_neg (by simp)]
    unfold generate_release_ini
    rw [hloop]
    exact ⟨_, rfl, by simp [initState]⟩

theorem main_writes_eq (env : Env)
    (j1 j2 j3 j4 : List (Str × Str) × List CategoryResult)
    (h1 : categoryJob env "sysmodules".toList sysmodulesIn sysmodulesOut = some j1)
    (h2 : categoryJob env "overlays".toList overlaysIn overlaysOut = some j2)
    (h3 : categoryJob env "apps".toList appsIn appsOut = some j3)
    (h4 : categoryJob env "emulatoren".toList emulatorenIn emulatorenOut = some j4) :
    (main env).1 = j1.1 ++ (j2.1 ++ (j3.1 ++ j4.1)) := by
  unfold main
  rw [h1, h2, h3, h4]

/-- **C9 (amended).** In a run in which no category's fetch loop raises the
`config.set` interpolation `ValueError` (each block returns normally), the
output manifest file of each category is written if and only if the
category's input file exists and at least one Entry was extracted from it;
in particular, when entries exist but every fetch fails, the loop completes
and the file is still written, consisting of just the section header.  (In
a run where some loop does raise, that category's file and all later
categories' files are not written even though entries were extracted — see
the counterexample.) -/
theorem main_writes_iff (env : Env)
    (hok : ∀ spec ∈ catSpecs, (categoryJob env spec.1 spec.2.1 spec.2.2).isSome) :
    ∀ spec ∈ catSpecs,
      ((∃ content, (spec.2.2, content) ∈ (main env).1) ↔
        (env.fileExists spec.2.1 = true ∧
          parse_ini_file (env.readFile spec.2.1) ≠ [])) ∧
      ((env.fileExists spec.2.1 = true ∧ parse_ini_file (env.readFile spec.2.1) ≠ [] ∧
          ∀ e ∈ parse_ini_file (env.readFile spec.2.1),
            entrySucceeds env.fetch e = false) →
        (spec.2.2, writeManifest (sectionNameFor spec.1) []) ∈ (main env).1) := by
  obtain ⟨j1, hj1⟩ := Option.isSome_iff_exists.mp
    (hok ("sysmodules".toList, sysmodulesIn, sysmodulesOut) (by simp [catSpecs]))
  obtain ⟨j2, hj2⟩ := Option.isSome_iff_exists.mp
    (hok ("overlays".toList, overlaysIn, overlaysOut) (by simp [catSpecs]))
  obtain ⟨j3, hj3⟩ := Option.isSome_iff_exists.mp
    (hok ("apps".toList, appsIn, appsOut) (by simp [catSpecs]))
  obtain ⟨j4, hj4⟩ := Option.isSome_iff_exists.mp
    (hok ("emulatoren".toList, emulatorenIn, emulatorenOut) (by simp [catSpecs]))
  have hmain := main_writes_eq env j1 j2 j3 j4 hj1 hj2 hj3 hj4
  intro spec hspec
  simp only [catSpecs, List.mem_cons, List.not_mem_nil, or_false] at hspec
  rcases hspec with rfl | rfl | rfl | rfl
  · refine ⟨⟨?_, ?_⟩, ?_⟩
    · rintro ⟨content, hc⟩
      rw [hmain] at hc
      rcases List.mem_append.mp hc with h | h
      · rcases categoryJob_some_spec env _ _ _ j1 hj1 with ⟨he, _⟩ | ⟨c, _, hex, hne⟩
        · rw [he] at h; simp at h
        · exact ⟨hex, hne⟩
      · rcases List.mem_append.mp h with h' | h'
        · exact absurd h' (not_mem_categoryJob_ne env _ _ _ j2 _ content hj2 (by decide))
        · rcases List.mem_append.mp h' with h'' | h''
          · exact absurd h'' (not_mem_categoryJob_ne env _ _ _ j3 _ content hj3 (by decide))
          · exact absurd h'' (not_mem_categoryJob_ne env _ _ _ j4 _ content hj4 (by decide))
    · rintro ⟨hex, hne⟩
      rcases categoryJob_some_spec env _ _ _ j1 hj1 with ⟨_, hnc⟩ | ⟨c, hj1e, _, _⟩
      · exact absurd ⟨hex, hne⟩ hnc
      · refine ⟨c, ?_⟩
        rw [hmain]
        exact List.mem_append.mpr (Or.inl (by rw [hj1e]; simp))
    · rintro ⟨hex, hne, hfail⟩
      obtain ⟨j, hj, hmem⟩ := categoryJob_all_fail env "sysmodules".toList _ _ hex hne hfail
      rw [hj1] at hj
      rw [← Option.some.inj hj] at hmem
      rw [hmain]
      exact List.mem_append.mpr (Or.inl hmem)
  · refine ⟨⟨?_, ?_⟩, ?_⟩
    · rintro ⟨content, hc⟩
      rw [hmain] at hc
      rcases List.mem_append.mp hc with h | h
      · exact absurd h (not_mem_categoryJob_ne env _ _ _ j1 _ content hj1 (by decide))
      · rcases List.mem_append.mp h with h' | h'
        · rcases categoryJob_some_spec env _ _ _ j2 hj2 with ⟨he, _⟩ | ⟨c, _, hex, hne⟩
          · rw [he] at h'; simp at h'
          · exact ⟨hex, hne⟩
        · rcases List.mem_append.mp h' with h'' | h''
          · exact absurd h'' (not_mem_categoryJob_ne env _ _ _ j3 _ content hj3 (by decide))
          · exact absurd h'' (not_mem_categoryJob_ne env _ _ _ j4 _ content hj4 (by decide))
    · rintro ⟨hex, hne⟩
      rcases categoryJob_some_spec env _ _ _ j2 hj2 with ⟨_, hnc⟩ | ⟨c, hj2e, _, _⟩
      · exact absurd ⟨hex, hne⟩ hnc
      · refine ⟨c, ?_⟩
        rw [hmain]
        exact List.mem_append.mpr (Or.inr (List.mem_append.mpr (Or.inl (by rw [hj2e]; simp))))
    · rintro ⟨hex, hne, hfail⟩
      obtain ⟨j, hj, hmem⟩ := categoryJob_all_fail env "overlays".toList _ _ hex hne hfail
      rw [hj2] at hj
      rw [← Option.some.inj hj] at hmem
      rw [hmain]
      exact List.mem_append.mpr (Or.inr (List.mem_append.mpr (Or.inl hmem)))
  · refine ⟨⟨?_, ?_⟩, ?_⟩
    · rintro ⟨content, hc⟩
      rw [hmain] at hc
      rcases List.mem_append.mp hc with h | h
      · exact absurd h (not_mem_categoryJob_ne env _ _ _ j1 _ content hj1 (by decide))
      · rcases List.mem_append.mp h with h' | h'
        · exact absurd h' (not_mem_categoryJob_ne env _ _ _ j2 _ content hj2 (by decide))
        · rcases List.mem_append.mp h' with h'' | h''
          · rcases categoryJob_some_spec env _ _ _ j3 hj3 with ⟨he, _⟩ | ⟨c, _, hex, hne⟩
            · rw [he] at h''; simp at h''
            · exact ⟨hex, hne⟩
          · exact absurd h'' (not_mem_categoryJob_ne env _ _ _ j4 _ content hj4 (by decide))
    · rintro ⟨hex, hne⟩
      rcases categoryJob_some_spec env _ _ _ j3 hj3 with ⟨_, hnc⟩ | ⟨c, hj3e, _, _⟩
      · exact absurd ⟨hex, hne⟩ hnc
      · refine ⟨c, ?_⟩
        rw [hmain]
        exact List.mem_append.mpr (Or.inr (List.mem_append.mpr (Or.inr
          (List.mem_append.mpr (Or.inl (by rw [hj3e]; simp))))))
    · rintro ⟨hex, hne, hfail⟩
      obtain ⟨j, hj, hmem⟩ := categoryJob_all_fail env "apps".toList _ _ hex hne hfail
      rw [hj3] at hj
      rw [← Option.some.inj hj] at hmem
      rw [hmain]
      exact List.mem_append.mpr (Or.inr (List.mem_append.mpr (Or.inr
        (List.mem_append.mpr (Or.inl hmem)))))
  · refine ⟨⟨?_, ?_⟩, ?_⟩
    · rintro ⟨content, hc⟩
      rw [hmain] at hc
      rcases List.mem_append.mp hc with h | h
      · exact absurd h (not_mem_categoryJob_ne env _ _ _ j1 _ content hj1 (by decide))
      · rcases List.mem_append.mp h with h' | h'
        · exact absurd h' (not_mem_categoryJob_ne env _ _ _ j2 _ content hj2 (by decide))
        · rcases List.mem_append.mp h' with h'' | h''
          · exact absurd h'' (not_mem_categoryJob_ne env _ _ _ j3 _ content hj3 (by decide))
          · rcases categoryJob_some_spec env _ _ _ j4 hj4 with ⟨he, _⟩ | ⟨c, _, hex, hne⟩
            · rw [he] at h''; simp at h''
            · exact ⟨hex, hne⟩
    · rintro ⟨hex, hne⟩
      rcases categoryJob_some_spec env _ _ _ j4 hj4 with ⟨_, hnc⟩ | ⟨c, hj4e, _, _⟩
      · exact absurd ⟨hex, hne⟩ hnc
      · refine ⟨c, ?_⟩
        rw [hmain]
        exact List.mem_append.mpr (Or.inr (List.mem_append.mpr (Or.inr
          (List.mem_append.mpr (Or.inr (by rw [hj4e]; simp))))))
    · rintro ⟨hex, hne, hfail⟩
      obtain ⟨j, hj, hmem⟩ := categoryJob_all_fail env "emulatoren".toList _ _ hex hne hfail
      rw [hj4] at hj
      rw [← Option.some.inj hj] at hmem
      rw [hmain]
      exact List.mem_append.mpr (Or.inr (List.mem_append.mpr (Or.inr
        (List.mem_append.mpr (Or.inr hmem)))))

/-- Witness for C9: in the concrete environment where only the sysmodules
input exists (one entry) and every fetch fails, no loop raises, and the
sysmodules output file is written as exactly the bare `[Versions]` header. -/
theorem main_writes_witness :
    (sysmodulesOut, writeManifest (sectionNameFor "sysmodules".toList) []) ∈
      (main envEx).1 :=
  (main_writes_iff envEx (by decide)
      ("sysmodules".toList, sysmodulesIn, sysmodulesOut)
      (by simp [catSpecs])).2 ⟨by decide, by decide, by decide⟩

/-- **C9 (counterexample).** In `envCrash` both the sysmodules and the
overlays inputs yield an entry, yet the run writes no file at all: the very
first `config.set` raises `ValueError` on the fetched tag `"50%"`, killing
the run before any output file is opened. -/
theorem main_writes_counterexample :
    envCrash.fileExists sysmodulesIn = true ∧
      parse_ini_file (envCrash.readFile sysmodulesIn) ≠ [] ∧
      envCrash.fileExists overlaysIn = true ∧
      parse_ini_file (envCrash.readFile overlaysIn) ≠ [] ∧
      (main envCrash).1 = [] ∧ (main envCrash).2 = none := by
  refine ⟨by decide, by decide, by decide, by decide, by decide, by decide⟩


theorem matchUrlAt_nil : matchUrlAt [] = none := by decide

theorem matchUrlAt_sound (s u : Str) (h : matchUrlAt s = some u) :
    ∃ c post, s = urlLit ++ (c :: post) ∧ isPyWs c = false := by
  unfold matchUrlAt at h
  split at h
  · exact absurd h (by simp)
  rename_i rest h1
  simp only at h
  split at h
  · exact absurd h (by simp)
  rename_i hrun
  have hs : s = urlLit ++ rest := (eatLit_eq_some _ _ _).mp h1
  cases hr : rest with
  | nil => rw [hr] at hrun; simp at hrun
  | cons c rest' =>
    rw [hr] at hrun
    by_cases hc : isPyWs c
    · rw [List.takeWhile_cons] at hrun
      simp [hc] at hrun
    · exact ⟨c, rest', by rw [hs, hr], by simpa using hc⟩

theorem matchUrlAt_complete (c : Char) (post : Str) (hc : isPyWs c = false) :
    (matchUrlAt (urlLit ++ (c :: post))).isSome := by
  unfold matchUrlAt
  rw [(eatLit_eq_some urlLit _ _).mpr rfl]
  simp only
  rw [List.takeWhile_cons]
  simp [hc]

theorem firstUrl_of_matchUrlAt (s u : Str) (h : matchUrlAt s = some u) :
    firstUrl s = some u := by
  cases s with
  | nil => rw [matchUrlAt_nil] at h; exact absurd h (by simp)
  | cons c rest => simp [firstUrl, h]

theorem firstUrl_sound (s : Str) : ∀ u, firstUrl s = some u →
    ∃ pre c post, s = pre ++ (urlLit ++ (c :: post)) ∧ isPyWs c = false := by
  induction s with
  | nil => intro u h; simp [firstUrl] at h
  | cons a rest ih =>
    intro u h
    cases hm : matchUrlAt (a :: rest) with
    | some v =>
      rw [firstUrl, hm] at h
      obtain ⟨c, post, hdec, hc⟩ := matchUrlAt_sound _ _ hm
      exact ⟨[], c, post, by simpa using hdec, hc⟩
    | none =>
      rw [firstUrl, hm] at h
      obtain ⟨pre, c, post, hdec, hc⟩ := ih u h
      exact ⟨a :: pre, c, post, by simp [hdec], hc⟩

theorem firstUrl_complete (pre : Str) (c : Char) (post : Str) (hc : isPyWs c = false) :
    (firstUrl (pre ++ (urlLit ++ (c :: post)))).isSome := by
  induction pre with
  | nil =>
    rw [List.nil_append]
    obtain ⟨u, hu⟩ := Option.isSome_iff_exists.mp (matchUrlAt_complete c post hc)
    rw [firstUrl_of_matchUrlAt _ _ hu]
    rfl
  | cons a pre' ih =>
    rw [List.cons_append]
    cases hm : matchUrlAt (a :: (pre' ++ (urlLit ++ (c :: post)))) with
    | some v => simp [firstUrl, hm]
    | none => rw [firstUrl, hm]; exact ih

theorem sectionEntry_name (p : Str × Str) (e : Entry) (h : sectionEntry p = some e) :
    e.name = p.1 := by
  unfold sectionEntry at h
  split at h
  · exact absurd h (by simp)
  rename_i u hu
  split at h
  · rename_i o r he
    simp only [Option.some.injEq] at h
    rw [← h]
  · exact absurd h (by simp)

theorem parse_fold_eq (l : List (Str × Str)) :
    ∀ acc : List Entry,
      l.foldl (fun acc p =>
        match firstUrl (bodyUpTo true p.2) with
        | none => acc
        | some u =>
          match extract_repo_from_url u with
          | some (o, r) => acc ++ [⟨p.1, o, r, u⟩]
          | none => acc) acc = acc ++ l.filterMap sectionEntry := by
  induction l with
  | nil => intro acc; simp
  | cons p l' ih =>
    intro acc
    rw [List.foldl_cons, ih]
    cases hu : firstUrl (bodyUpTo true p.2) with
    | none => simp [List.filterMap_cons, sectionEntry, hu]
    | some u =>
      cases he : extract_repo_from_url u with
      | none => simp [List.filterMap_cons, sectionEntry, hu, he]
      | some pr =>
        obtain ⟨o, r⟩ := pr
        simp [List.filterMap_cons, sectionEntry, hu, he]

theorem filterMap_sectionEntry_names (l : List (Str × Str)) :
    List.Sublist ((l.filterMap sectionEntry).map Entry.name) (l.map Prod.fst) := by
  induction l with
  | nil => simp
  | cons p l' ih =>
    rw [List.filterMap_cons]
    cases hp : sectionEntry p with
    | none => rw [List.map_cons]; exact ih.cons _
    | some e =>
      rw [List.map_cons, List.map_cons, sectionEntry_name p e hp]
      exact ih.cons₂ _

/-- **C8.** The Config Reader turns each section into at most one Entry,
processing sections in order (`filterMap` over the section scan, so output
Entries keep section order — their names form a sublist of the section
names); a section whose body contains no substring matching the
release-API URL pattern (the literal `https://api.github.com/repos/`
followed by at least one non-whitespace character) contributes no Entry
and no error. -/
theorem parse_sections_spec (content : Str) :
    parse_ini_file content = (findSections content).filterMap sectionEntry ∧
    List.Sublist ((parse_ini_file content).map Entry.name)
      ((findSections content).map Prod.fst) ∧
    ∀ p ∈ findSections content,
      (¬ ∃ pre c post,
          bodyUpTo true p.2 = pre ++ (urlLit ++ (c :: post)) ∧ isPyWs c = false) →
      sectionEntry p = none := by
  have heq : parse_ini_file content = (findSections content).filterMap sectionEntry := by
    unfold parse_ini_file
    rw [parse_fold_eq]
    simp
  refine ⟨heq, ?_, ?_⟩
  · rw [heq]
    exact filterMap_sectionEntry_names _
  · intro p _ hno
    cases hu : firstUrl (bodyUpTo true p.2) with
    | none => simp [sectionEntry, hu]
    | some u =>
      obtain ⟨pre, c, post, hdec, hc⟩ := firstUrl_sound _ u hu
      exact absurd ⟨pre, c, post, hdec, hc⟩ hno

/-- Witness for C8 at a concrete file: the URL-less section `[A]`
contributes no entry. -/
theorem parse_sections_witness :
    sectionEntry ("A".toList,
      "\nhello\n[B]\nhttps://api.github.com/repos/x/y/releases\n".toList) = none :=
  (parse_sections_spec
      "[A]\nhello\n[B]\nhttps://api.github.com/repos/x/y/releases\n".toList).2.2
    ("A".toList, "\nhello\n[B]\nhttps://api.github.com/repos/x/y/releases\n".toList)
    (by decide)
    (by
      rintro ⟨pre, c, post, hdec, hc⟩
      have hsome := firstUrl_complete pre c post hc
      rw [← hdec] at hsome
      rw [show firstUrl (bodyUpTo true
          "\nhello\n[B]\nhttps://api.github.com/repos/x/y/releases\n".toList) = none
        from by decide] at hsome
      simp at hsome)

theorem dropWhile_length_le {α : Type} (p : α → Bool) (l : List α) :
    (l.dropWhile p).length ≤ l.length := by
  induction l with
  | nil => simp
  | cons c cs ih =>
    rw [List.dropWhile_cons]
    split
    · exact Nat.le_trans ih (Nat.le_succ _)
    · exact Nat.le_refl _

theorem replNl_of_no_nl (v : Str) (h : '\n' ∉ v) : replNl v = v := by
  induction v with
  | nil => rfl
  | cons c cs ih =>
    have hc : ¬(c = '\n') := fun hh => h (by simp [hh])
    simp only [replNl, if_neg hc]
    rw [ih (fun hh => h (by simp [hh]))]

theorem splitNl_append_cons (a rest : Str) (h : '\n' ∉ a) :
    splitOnChar '\n' (a ++ '\n' :: rest) = a :: splitOnChar '\n' rest := by
  induction a with
  | nil => simp [splitOnChar]
  | cons c cs ih =>
    have hc : ¬(c = '\n') := fun hh => h (by simp [hh])
    rw [List.cons_append]
    simp only [splitOnChar, if_neg hc]
    rw [ih (fun hh => h (by simp [hh]))]

theorem head_not_ws_of_lstrip (c : Char) (k' : Str)
    (h : lstripWs (c :: k') = c :: k') : isWsChar c = false := by
  by_contra hc
  have hc' : isWsChar c = true := by simpa using hc
  unfold lstripWs at h
  rw [List.dropWhile_cons, if_pos hc'] at h
  have := dropWhile_length_le isWsChar k'
  rw [h] at this
  simp at this

theorem lstripWs_append_self (k b : Str) (hk : k ≠ []) (h : lstripWs k = k) :
    lstripWs (k ++ b) = k ++ b := by
  cases k with
  | nil => exact absurd rfl hk
  | cons c k' =>
    have hc := head_not_ws_of_lstrip c k' h
    rw [List.cons_append]
    unfold lstripWs
    rw [List.dropWhile_cons, if_neg (by simp [hc])]

theorem rstripWs_eq_self_iff (l : Str) :
    rstripWs l = l ↔ lstripWs l.reverse = l.reverse := by
  unfold rstripWs lstripWs
  rw [List.reverse_eq_iff]

theorem rstripWs_append_self (a b : Str) (hb : b ≠ []) (h : rstripWs b = b) :
    rstripWs (a ++ b) = a ++ b := by
  rw [rstripWs_eq_self_iff, List.reverse_append]
  exact lstripWs_append_self b.reverse a.reverse (by simpa using hb)
    ((rstripWs_eq_self_iff b).mp h)

theorem stripWs_header (sec : Str) :
    stripWs ('[' :: (sec ++ [']'])) = '[' :: (sec ++ [']']) := by
  unfold stripWs
  rw [show lstripWs ('[' :: (sec ++ [']'])) = '[' :: (sec ++ [']']) by
    unfold lstripWs; rw [List.dropWhile_cons, if_neg (by decide)]]
  exact rstripWs_append_self ('[' :: sec) [']'] (by simp) (by decide)

theorem stripWs_kv_line (k v : Str) (hk : keyOK k) (hv : valOK v) :
    stripWs (k ++ '=' :: v) = k ++ '=' :: v := by
  obtain ⟨hk0, _, _, _, hkl, hkr, _, _, _⟩ := hk
  obtain ⟨_, hvl, hvr, _⟩ := hv
  unfold stripWs
  rw [lstripWs_append_self k ('=' :: v) hk0 hkl]
  cases v with
  | nil => exact rstripWs_append_self k ['='] (by simp) (by decide)
  | cons c v' =>
    rw [show k ++ '=' :: c :: v' = (k ++ ['=']) ++ (c :: v') by simp]
    rw [rstripWs_append_self (k ++ ['=']) (c :: v') (by simp) hvr]

theorem secHdr_not_bracket (c : Char) (rest : Str) (h : ¬(c = '[')) :
    secHdr (c :: rest) = none := by
  unfold secHdr
  split
  · rename_i r heq
    injection heq with h1 _
    exact absurd h1 h
  · rfl

theorem classify_header (sec : Str) (hsec : secOK sec) :
    classifyLine ('[' :: (sec ++ [']'])) = .sectionHdr sec := by
  have h0 := hsec.1
  have hrb := hsec.2.2
  have hsecHdr : secHdr ('[' :: (sec ++ [']'])) = some sec := by
    simp only [secHdr]
    have hrun : ∀ c ∈ sec, (fun c => decide (c ≠ ']')) c = true := by
      intro c hc
      simp only [decide_eq_true_eq]
      intro hh
      exact hrb (hh ▸ hc)
    rw [takeWhile_run _ sec ']' [] hrun (by decide),
      dropWhile_run _ sec ']' [] hrun (by decide)]
    simp [h0]
  simp only [classifyLine]
  rw [stripWs_header sec]
  simp only
  rw [if_neg (by decide), if_neg (by decide), hsecHdr]

theorem kvSplit_line (k v : Str) (hke : '=' ∉ k) (hkc : ':' ∉ k)
    (hkr : rstripWs k = k) (hvl : lstripWs v = v) (hvr : rstripWs v = v) :
    kvSplit (k ++ '=' :: v) = some (k, v) := by
  unfold kvSplit
  have hrun : ∀ ch ∈ k, (fun c => decide (¬(c = '=' ∨ c = ':'))) ch = true := by
    intro ch hc
    simp only [decide_eq_true_eq, not_or]
    exact ⟨fun hh => hke (hh ▸ hc), fun hh => hkc (hh ▸ hc)⟩
  rw [takeWhile_run _ k '=' v hrun (by decide), dropWhile_run _ k '=' v hrun (by decide)]
  simp only
  rw [hkr, show stripWs v = v from by unfold stripWs; rw [hvl, hvr]]

theorem classify_kv_line (k v : Str) (hk : keyOK k) (hv : valOK v) :
    classifyLine (k ++ '=' :: v) = .kv k v := by
  have hsplit := kvSplit_line k v hk.2.2.1 hk.2.2.2.1 hk.2.2.2.2.2.1 hv.2.1 hv.2.2.1
  have hstrip := stripWs_kv_line k v hk hv
  obtain ⟨hk0, _, hke, hkc, hkl, hkr, hkb, hkh, hks⟩ := hk
  cases k with
  | nil => exact absurd rfl hk0
  | cons c k' =>
    have hcb : ¬(c = '[') := fun hh => hkb (by simp [hh])
    have hch : ¬(c = '#') := fun hh => hkh (by simp [hh])
    have hcs : ¬(c = ';') := fun hh => hks (by simp [hh])
    have hcw : isWsChar c = false := head_not_ws_of_lstrip c k' hkl
    unfold classifyLine
    rw [List.cons_append]
    simp only
    rw [show stripWs (c :: (k' ++ '=' :: v)) = c :: (k' ++ '=' :: v) by
      rw [← List.cons_append]; exact hstrip]
    simp only
    rw [if_neg (by simp [hch, hcs]), if_neg (by simp [hcw])]
    rw [secHdr_not_bracket c _ hcb]
    rw [show (c :: (k' ++ '=' :: v)) = (c :: k') ++ '=' :: v from by simp, hsplit]

theorem splitNl_flatten (m : List (Str × Str))
    (hm : ∀ p ∈ m, '\n' ∉ p.1 ∧ '\n' ∉ p.2) :
    splitOnChar '\n' ((m.map kvLine).flatten ++ ['\n']) =
      m.map (fun p => p.1 ++ '=' :: p.2) ++ [[], []] := by
  induction m with
  | nil => decide
  | cons p m' ih =>
    obtain ⟨hk, hv⟩ := hm p (by simp)
    have hrepl : replNl p.2 = p.2 := replNl_of_no_nl _ hv
    rw [List.map_cons, List.flatten_cons]
    have hline : (kvLine p ++ (m'.map kvLine).flatten) ++ ['\n'] =
        (p.1 ++ '=' :: p.2) ++ '\n' :: ((m'.map kvLine).flatten ++ ['\n']) := by
      unfold kvLine
      rw [hrepl]
      simp
    rw [hline]
    rw [splitNl_append_cons _ _ (by
      intro hmem
      rcases List.mem_append.mp hmem with h | h
      · exact hk h
      · rcases List.mem_cons.mp h with h' | h'
        · exact absurd h' (by decide)
        · exact hv h')]
    rw [ih (fun q hq => hm q (by simp [hq]))]
    simp

theorem splitNl_writeManifest (sec : Str) (m : List (Str × Str)) (hsec : '\n' ∉ sec)
    (hm : ∀ p ∈ m, '\n' ∉ p.1 ∧ '\n' ∉ p.2) :
    splitOnChar '\n' (writeManifest sec m) =
      ('[' :: (sec ++ [']'])) :: (m.map (fun p => p.1 ++ '=' :: p.2) ++ [[], []]) := by
  unfold writeManifest
  have h1 : ('[' :: (sec ++ [']', '\n'])) ++ ((m.map kvLine).flatten ++ ['\n']) =
      ('[' :: (sec ++ [']'])) ++ '\n' :: ((m.map kvLine).flatten ++ ['\n']) := by
    simp
  rw [h1]
  rw [splitNl_append_cons _ _ (by
    intro hmem
    rcases List.mem_cons.mp hmem with h | h
    · exact absurd h (by decide)
    · rcases List.mem_append.mp h with h' | h'
      · exact hsec h'
      · rcases List.mem_cons.mp h' with h'' | h''
        · exact absurd h'' (by decide)
        · simp at h'')]
  rw [splitNl_flatten m hm]

theorem rd_fold_kv (sec : Str) (kvs : List (Str × Str)) :
    ∀ acc : List (Str × Str),
      (∀ p ∈ kvs, keyOK p.1 ∧ valOK p.2) →
      ((acc ++ kvs).map Prod.fst).Nodup →
      List.foldlM rdStep (⟨[], some (sec, acc)⟩ : RdSt)
          ((kvs.map (fun p => p.1 ++ '=' :: p.2)) ++ [[], []]) =
        some ⟨[], some (sec, acc ++ kvs)⟩ := by
  induction kvs with
  | nil =>
    intro acc _ _
    simp [List.foldlM_cons, List.foldlM_nil, rdStep, classifyLine]
  | cons p kvs' ih =>
    intro acc hOK hnd
    obtain ⟨k, v⟩ := p
    obtain ⟨hk, hv⟩ := hOK (k, v) (by simp)
    rw [List.map_cons, List.cons_append, List.foldlM_cons]
    have hdup : ¬(acc.any (fun q => q.1 = k) = true) := by
      intro hany
      simp only [List.any_eq_true, decide_eq_true_eq] at hany
      obtain ⟨q, hq, hqk⟩ := hany
      rw [List.map_append] at hnd
      have hdisj := (List.nodup_append.mp hnd).2.2
      exact hdisj (List.mem_map.mpr ⟨q, hq, hqk⟩) (by simp)
    have hstep : rdStep ⟨[], some (sec, acc)⟩ (k ++ '=' :: v) =
        some ⟨[], some (sec, acc ++ [(k, v)])⟩ := by
      unfold rdStep
      rw [classify_kv_line k v hk hv]
      simp only
      rw [if_neg hdup]
    rw [hstep]
    have hrec := ih (acc ++ [(k, v)]) (fun q hq => hOK q (by simp [hq]))
      (by rw [List.append_assoc]; simpa using hnd)
    rw [List.append_assoc] at hrec
    simp only [List.singleton_append] at hrec
    simpa using hrec

/-- **C5 (amended).** Round-trip of the Manifest Writer with the same
key-value parser: for every ordered mapping whose keys are nonempty,
single-line, delimiter-free (`=`, `:`), not comment/section/continuation
shaped, without surrounding whitespace, and pairwise distinct, and whose
values are single-line, `%`-free and without surrounding whitespace,
reading the written file back yields exactly one section with the identical
mapping, in insertion order with key case preserved.  (Keys containing a
delimiter, or keys/values with surrounding whitespace, are re-parsed
differently, as the counterexample shows, so the original unrestricted
claim fails.) -/
theorem manifest_roundtrip (sec : Str) (kvs : List (Str × Str)) (hsec : secOK sec)
    (hkv : ∀ p ∈ kvs, keyOK p.1 ∧ valOK p.2) (hnd : (kvs.map Prod.fst).Nodup) :
    readKV (writeManifest sec kvs) = some [(sec, kvs)] := by
  unfold readKV
  rw [splitNl_writeManifest sec kvs hsec.2.1
    (fun p hp => ⟨(hkv p hp).1.2.1, (hkv p hp).2.1⟩)]
  rw [List.foldlM_cons]
  have hstep : rdStep ⟨[], none⟩ ('[' :: (sec ++ [']'])) = some ⟨[], some (sec, [])⟩ := by
    unfold rdStep
    rw [classify_header sec hsec]
    simp
  rw [hstep]
  have hrec := rd_fold_kv sec kvs [] hkv (by simpa using hnd)
  simp only [List.nil_append] at hrec
  have hbind : (some (⟨[], some (sec, [])⟩ : RdSt) >>= fun init =>
      List.foldlM rdStep init (kvs.map (fun p => p.1 ++ '=' :: p.2) ++ [[], []])) =
      List.foldlM rdStep ⟨[], some (sec, [])⟩
        (kvs.map (fun p => p.1 ++ '=' :: p.2) ++ [[], []]) := rfl
  rw [hbind, hrec]
  simp [finalizeRd]

/-- **C5 (counterexample).** Writing the single-pair mapping
`{"a=b": "1"}` produces the line `a=b=1`, which the parser re-splits at the
first delimiter, reading back the different mapping `{"a": "b=1"}`. -/
theorem manifest_roundtrip_counterexample :
    readKV (writeManifest "Versions".toList [("a=b".toList, "1".toList)]) =
        some [("Versions".toList, [("a".toList, "b=1".toList)])] ∧
      [("a".toList, "b=1".toList)] ≠ [("a=b".toList, "1".toList)] := by
  refine ⟨by decide, by decide⟩

/-- Witness for C5 at the spec's own example mapping
`{"A": "1.0", "B": "2.3.4"}` under section `Versions`. -/
theorem manifest_roundtrip_witness :
    readKV (writeManifest "Versions".toList
        [("A".toList, "1.0".toList), ("B".toList, "2.3.4".toList)]) =
      some [("Versions".toList,
        [("A".toList, "1.0".toList), ("B".toList, "2.3.4".toList)])] :=
  manifest_roundtrip "Versions".toList
    [("A".toList, "1.0".toList), ("B".toList, "2.3.4".toList)]
    (by decide) (by decide) (by decide)

end OmniDownloader
